import Mathlib

/-!
Verification of the structural source indexer: a shallow embedding of its
ignore-aware directory walker, its two extraction strategies (a syntax-tree
strategy for TypeScript/JavaScript and a stack-based line strategy for
Fortran), and the indexing orchestrator (full scan and incremental update),
together with theorems settling the specified properties.
-/

/-! ## String and character helpers (JavaScript semantics) -/

/-- Whitespace characters removed by the JavaScript trim operation,
restricted to the ASCII range that can occur in source lines. -/
def jsWS (c : Char) : Bool :=
  c = ' ' || c = '\t' || c = '\n' || c = '\r' ||
  c = Char.ofNat 11 || c = Char.ofNat 12

/-- Remove leading and trailing whitespace from a character list. -/
def jsTrimL (l : List Char) : List Char :=
  ((l.dropWhile jsWS).reverse.dropWhile jsWS).reverse

/-- JavaScript string trim. -/
def jsTrim (s : String) : String :=
  ⟨jsTrimL s.data⟩

/-- ASCII lower-casing of one character, as the relevant JavaScript
toLowerCase behaves on the characters the scanners match. -/
def lowerChar (c : Char) : Char :=
  if 65 ≤ c.toNat && c.toNat ≤ 90 then Char.ofNat (c.toNat + 32) else c

/-- ASCII lower-casing of a string. -/
def lowerStr (s : String) : String :=
  ⟨s.data.map lowerChar⟩

/-- Word character, as the regular-expression class of letters, digits and
underscore. -/
def isWordChar (c : Char) : Bool :=
  c.isAlpha || c.isDigit || c = '_'

/-- Split a string on newline characters, dropping one carriage return at
the end of each piece, as the split on the line-break pattern does. -/
def splitLines (s : String) : List String :=
  (splitAux s.data []).map stripCR
where
  splitAux : List Char → List Char → List String
    | [], acc => [⟨acc.reverse⟩]
    | '\n' :: rest, acc => ⟨acc.reverse⟩ :: splitAux rest []
    | c :: rest, acc => splitAux rest (c :: acc)
  stripCR (piece : String) : String :=
    match piece.data.reverse with
    | '\r' :: tail => ⟨tail.reverse⟩
    | _ => piece

/-- Join lines with newline characters. -/
def joinNL (lines : List String) : String :=
  String.intercalate "\n" lines

/-- Re-slice a file, given as its list of lines, at the inclusive one-based
range from s to e, join, and trim: the canonical form every emitted code
snippet takes in both strategies. -/
def reSlice (lines : List String) (s e : Nat) : String :=
  jsTrim (joinNL ((lines.drop (s - 1)).take (e - (s - 1))))

/-- The extension of a file name: the suffix of the base name from its last
dot, empty when the base name has no dot or only a leading dot. -/
def extnameOf (p : String) : String :=
  let base := (afterLastSlash p.data []).reverse
  extOfBase base
where
  afterLastSlash : List Char → List Char → List Char
    | [], acc => acc
    | '/' :: rest, _ => afterLastSlash rest []
    | c :: rest, acc => afterLastSlash rest (c :: acc)
  extOfBase (base : List Char) : String :=
    match lastDotIdx base 0 none with
    | none => ""
    | some 0 => ""
    | some i => ⟨base.drop i⟩
  lastDotIdx : List Char → Nat → Option Nat → Option Nat
    | [], _, best => best
    | '.' :: rest, i, _ => lastDotIdx rest (i + 1) (some i)
    | _ :: rest, i, best => lastDotIdx rest (i + 1) best

/-! ## Data model -/

/-- One extracted construct: kind, name, one-based inclusive line range,
and the trimmed verbatim snippet. -/
structure ExtractedTag where
  kind : String
  name : String
  startLine : Nat
  endLine : Nat
  code : String
deriving DecidableEq, Repr

/-- One file entry of the persisted index. -/
structure ScopedFileContext where
  filePath : String
  language : String
  tags : List ExtractedTag
deriving DecidableEq, Repr

/-! ## Fortran stack strategy -/

/-- An open-construct record on the scanner stack. -/
structure OpenRec where
  kind : String
  name : String
  startLine : Nat
deriving DecidableEq, Repr

namespace FortranScanner

/-- A fixed-form comment line: the first character after leading
whitespace is one of c, C, star, or the exclamation mark. -/
def isFixedComment (line : String) : Bool :=
  match line.data.dropWhile jsWS with
  | [] => false
  | c :: _ => c = 'c' || c = 'C' || c = '*' || c = '!'

/-- The code part of a line: the text before the first inline comment
marker, trimmed and lower-cased. -/
def codePartOf (line : String) : String :=
  lowerStr (jsTrim ⟨line.data.takeWhile (· ≠ '!')⟩)

/-- Match a keyword followed by whitespace and an identifier at the start
of the code part; return the captured identifier. -/
def matchKeywordIdent (kw : List Char) (l : List Char) : Option String :=
  let l' := l.dropWhile jsWS
  if l'.take kw.length = kw then
    let rest := l'.drop kw.length
    let ws := rest.takeWhile jsWS
    if ws.isEmpty then none
    else
      let afterWS := rest.dropWhile jsWS
      let ident := afterWS.takeWhile isWordChar
      if ident.isEmpty then none else some ⟨ident⟩
  else none

/-- The ordered opener patterns: kind and keyword. -/
def fortranPatterns : List (String × List Char) :=
  [ ("program", ['p','r','o','g','r','a','m'])
  , ("module", ['m','o','d','u','l','e'])
  , ("subroutine", ['s','u','b','r','o','u','t','i','n','e'])
  , ("function", ['f','u','n','c','t','i','o','n'])
  , ("type", ['t','y','p','e']) ]

/-- Try the opener patterns in order on the code part; the first match
yields the kind and the captured name. -/
def findOpener (cp : String) : Option (String × String) :=
  go fortranPatterns
where
  go : List (String × List Char) → Option (String × String)
    | [] => none
    | (kind, kw) :: rest =>
      match matchKeywordIdent kw cp.data with
      | some nm => some (kind, nm)
      | none => go rest

/-- Close-construct test: the code part starts with the word end, at a
word boundary. -/
def isEndLine (cp : String) : Bool :=
  let l := cp.data.dropWhile jsWS
  l.take 3 = ['e','n','d'] &&
    (match l.drop 3 with
     | [] => true
     | c :: _ => !isWordChar c)

/-- Push an open record when the code part matches an opener pattern. -/
def pushOpener (cp : String) (i : Nat) (stack : List OpenRec) : List OpenRec :=
  match findOpener cp with
  | some (kind, nm) => ⟨kind, nm, i⟩ :: stack
  | none => stack

/-- Finalize a record closed at line i: the snippet is the trimmed
verbatim span of its lines. -/
def closeRec (lines : List String) (r : OpenRec) (i : Nat) : ExtractedTag :=
  ⟨r.kind, r.name, r.startLine, i, reSlice lines r.startLine i⟩

/-- The per-line scanning loop over the remaining lines, carrying the
one-based index of the next line, the emitted tags and the open stack. -/
def fortranLoop (lines : List String) : Nat → List String → List ExtractedTag → List OpenRec → List ExtractedTag × List OpenRec
  | _, [], tags, stack => (tags, stack)
  | i, line :: rest, tags, stack =>
    if isFixedComment line then fortranLoop lines (i + 1) rest tags stack
    else
      let cp := codePartOf line
      if cp = "" then fortranLoop lines (i + 1) rest tags stack
      else
        let stack1 := pushOpener cp i stack
        if isEndLine cp then
          match stack1 with
          | [] => fortranLoop lines (i + 1) rest tags []
          | r :: stack2 =>
            fortranLoop lines (i + 1) rest (tags ++ [closeRec lines r i]) stack2
        else fortranLoop lines (i + 1) rest tags stack1

/-- Run the scanning loop over the whole file. -/
def scanLines (lines : List String) : List ExtractedTag × List OpenRec :=
  fortranLoop lines 1 lines [] []

/-- Force-close a record left open at the end of the file. -/
def forceCloseRec (lines : List String) (r : OpenRec) : ExtractedTag :=
  ⟨r.kind, r.name, r.startLine, lines.length, reSlice lines r.startLine lines.length⟩

/-- Extract the tags of a Fortran file given as its list of lines: run
the loop, then force-close the remaining stack in pop order. -/
def extractTags (lines : List String) : List ExtractedTag :=
  let res := scanLines lines
  res.1 ++ res.2.map (forceCloseRec lines)

/-- One when the line would push an opener record, zero otherwise. -/
def openerCount1 (line : String) : Nat :=
  if isFixedComment line then 0
  else
    let cp := codePartOf line
    if cp = "" then 0
    else if (findOpener cp).isSome then 1 else 0

/-- The number of opener lines of a file. -/
def countOpeners (lines : List String) : Nat :=
  (lines.map openerCount1).sum

end FortranScanner

/-! ## TypeScript and JavaScript syntax-tree strategy

The general parser is an external collaborator: it returns a syntax tree
with one-based line spans on its nodes, or fails, in which case the
strategy returns no tags. The tree is modelled abstractly, carrying
exactly the node shapes and fields the visitor inspects; the visitor is a
pre-order walk emitting a tag at each handled node. -/

/-- A node location: the one-based start and end line recorded by the
parser. -/
structure Loc where
  startLine : Nat
  endLine : Nat
deriving DecidableEq, Repr

/-- The shape of a declarator initializer, as far as the visitor
distinguishes: an arrow function literal, a function expression, or any
other expression, each with an optional recorded location. -/
inductive JsInit where
  | arrowFn (loc : Option Loc)
  | funExpr (loc : Option Loc)
  | otherInit (loc : Option Loc)
deriving DecidableEq, Repr

/-- The binding target of a declarator: a plain identifier or a
destructuring pattern. -/
inductive JsLVal where
  | ident (name : String)
  | pattern
deriving DecidableEq, Repr

/-- One declarator of a variable-declaration statement. -/
structure JsDeclarator where
  id : JsLVal
  init : Option JsInit
  loc : Option Loc
deriving DecidableEq, Repr

/-- A syntax-tree node, restricted to the shapes the visitor handles,
with a child list giving the rest of the tree below it. -/
inductive JsNode where
  | functionDecl (id : Option String) (loc : Option Loc) (children : List JsNode)
  | variableDecl (decls : List JsDeclarator) (loc : Option Loc) (children : List JsNode)
  | classDecl (id : Option String) (loc : Option Loc) (children : List JsNode)
  | typeAlias (id : Option String) (loc : Option Loc) (children : List JsNode)
  | interfaceDecl (id : Option String) (loc : Option Loc) (children : List JsNode)
  | otherNode (children : List JsNode)
deriving Repr

namespace TypeScriptScanner

/-- Extract the trimmed snippet for a recorded location, by re-slicing
the source lines at the start and end line of the location. -/
def getSnippet (src : List String) (loc : Option Loc) : String :=
  match loc with
  | none => ""
  | some l => reSlice src l.startLine l.endLine

/-- Build the tag emitted for a handled node from its kind, name and
location. -/
def emitTag (src : List String) (kind name : String) (l : Loc) : ExtractedTag :=
  ⟨kind, name, l.startLine, l.endLine, getSnippet src (some l)⟩

/-- Process one declarator of a variable-declaration statement: a
function-literal initializer with a location emits a function tag over
the initializer span; any other initializer emits a variable tag over
the declarator span when that is recorded; otherwise nothing, and only
identifier binding targets emit at all. -/
def processDecl (src : List String) (d : JsDeclarator) : List ExtractedTag :=
  match d.id, d.init with
  | JsLVal.ident nm, some (JsInit.arrowFn (some l)) => [emitTag src "function" nm l]
  | JsLVal.ident nm, some (JsInit.funExpr (some l)) => [emitTag src "function" nm l]
  | JsLVal.ident nm, some (JsInit.otherInit _) =>
    match d.loc with
    | some dl => [emitTag src "variable" nm dl]
    | none => []
  | _, _ => []

/-- The visitor body for a variable-declaration statement: nothing when
the statement has no recorded location, else the per-declarator tags in
declarator order. -/
def visitVariableDecl (src : List String) (decls : List JsDeclarator) (loc : Option Loc) : List ExtractedTag :=
  match loc with
  | none => []
  | some _ => (decls.map (processDecl src)).flatten

/-- The visitor body for a named-declaration node: a tag when the node
has both a name and a location. -/
def visitNamed (src : List String) (kind : String) (id : Option String) (loc : Option Loc) : List ExtractedTag :=
  match id, loc with
  | some nm, some l => [emitTag src kind nm l]
  | _, _ => []

mutual

/-- Pre-order traversal of one node: emit the tags of the node itself,
then the tags found below it. -/
def visitNode (src : List String) : JsNode → List ExtractedTag
  | JsNode.functionDecl id loc ch => visitNamed src "function" id loc ++ visitNodes src ch
  | JsNode.variableDecl decls loc ch => visitVariableDecl src decls loc ++ visitNodes src ch
  | JsNode.classDecl id loc ch => visitNamed src "class" id loc ++ visitNodes src ch
  | JsNode.typeAlias id loc ch => visitNamed src "type" id loc ++ visitNodes src ch
  | JsNode.interfaceDecl id loc ch => visitNamed src "interface" id loc ++ visitNodes src ch
  | JsNode.otherNode ch => visitNodes src ch

/-- Pre-order traversal of a node list, left to right. -/
def visitNodes (src : List String) : List JsNode → List ExtractedTag
  | [] => []
  | n :: ns => visitNode src n ++ visitNodes src ns

end

/-- Extract the tags of a TypeScript or JavaScript file from its source
lines and the syntax tree the parser returned for it. -/
def extractTagsFromAst (src : List String) (ast : JsNode) : List ExtractedTag :=
  visitNode src ast

end TypeScriptScanner

/-! ## Strategy registry and orchestrator

A strategy is modelled by its language identifier, its declared
extensions, and its extraction result on each path, the latter determined
by the scanned tree during one run. -/

/-- An extraction strategy as the orchestrator sees it. -/
structure Scanner where
  name : String
  exts : List String
  extract : String → List ExtractedTag

/-- The union of the active strategies declared extensions, lower-cased,
in first-occurrence order. -/
def collectExtensions (scanners : List Scanner) : List String :=
  dedupFirst ((scanners.map (fun sc => sc.exts.map lowerStr)).flatten) []
where
  dedupFirst : List String → List String → List String
    | [], acc => acc.reverse
    | e :: rest, acc =>
      if e ∈ acc then dedupFirst rest acc else dedupFirst rest (e :: acc)

/-- Offer a file to the strategies in order: the first whose extraction
is non-empty claims it and becomes its entry; none claiming yields no
entry. -/
def claimFile (scanners : List Scanner) (f : String) : Option ScopedFileContext :=
  match scanners with
  | [] => none
  | sc :: rest =>
    let tags := sc.extract f
    if tags.isEmpty then claimFile rest f else some ⟨f, sc.name, tags⟩

/-- Full scan over the walked candidate files: each claimed file yields
one entry, files claimed by no strategy are omitted. -/
def runFullScan (scanners : List Scanner) (files : List String) : List ScopedFileContext :=
  match files with
  | [] => []
  | f :: fs =>
    match claimFile scanners f with
    | some e => e :: runFullScan scanners fs
    | none => runFullScan scanners fs

/-- Insertion-order map update keyed by file path: replace the first
entry with the key in place, or append at the end. -/
def mapSet : List ScopedFileContext → String → ScopedFileContext → List ScopedFileContext
  | [], _, e => [e]
  | x :: xs, k, e => if x.filePath = k then e :: xs else x :: mapSet xs k e

/-- Build the path-keyed map from the loaded prior index, in insertion
order with later duplicates collapsing onto the first position. -/
def buildMap (prior : List ScopedFileContext) : List ScopedFileContext :=
  prior.foldl (fun m e => mapSet m e.filePath e) []

/-- Look up the entry for a path. -/
def lookupEntry (m : List ScopedFileContext) (p : String) : Option ScopedFileContext :=
  m.find? (fun e => e.filePath = p)

/-- The filesystem facts the incremental update consults: whether a path
exists and is a regular file. -/
structure FsView where
  isFile : String → Bool

/-- Process one requested update path: resolve it, skip it when missing,
not a regular file, or of unsupported extension; otherwise the claiming
entry, or the explicit empty unknown entry, replaces the prior one. -/
def processUpdatePath (fsv : FsView) (scanners : List Scanner) (resolve : String → String)
    (m : List ScopedFileContext) (raw : String) : List ScopedFileContext :=
  let absPath := resolve raw
  if fsv.isFile absPath = false then m
  else if lowerStr (extnameOf absPath) ∈ collectExtensions scanners then
    match claimFile scanners absPath with
    | some e => mapSet m absPath e
    | none => mapSet m absPath ⟨absPath, "unknown", []⟩
  else m

/-- Incremental update: load the prior index into the map, process each
requested path, and serialize the map values. -/
def runIncrementalUpdate (fsv : FsView) (scanners : List Scanner) (resolve : String → String)
    (prior : List ScopedFileContext) (paths : List String) : List ScopedFileContext :=
  paths.foldl (processUpdatePath fsv scanners resolve) (buildMap prior)

/-! ## Ignore-rule loading -/

/-- The state of one designated rule file as the constructor finds it:
absent (or not a regular file), present but failing to read, or readable
with its content. -/
inductive RuleFile where
  | missing
  | unreadable
  | readable (content : String)
deriving Repr

/-- Parse rule-file content into pattern lines: split, trim, drop blank
lines and full-line comments. -/
def parseRuleLines (content : String) : List String :=
  ((splitLines content).map jsTrim).filter
    (fun l => !(l = "") && !(l.startsWith "#"))

namespace FileScannerCore

/-- Ignore-rule loading as the constructor performs it: missing rule
files are skipped; a read failure is uncaught and aborts construction;
readable files contribute their pattern lines in order, and the extra
patterns are appended last. -/
def loadIgnoreRules (files : List RuleFile) (extra : List String) : Except Unit (List String) :=
  match go files with
  | Except.error e => Except.error e
  | Except.ok rules => Except.ok (rules ++ extra)
where
  go : List RuleFile → Except Unit (List String)
    | [] => Except.ok []
    | RuleFile.missing :: rest => go rest
    | RuleFile.unreadable :: _ => Except.error ()
    | RuleFile.readable c :: rest =>
      match go rest with
      | Except.error e => Except.error e
      | Except.ok rules => Except.ok (parseRuleLines c ++ rules)

/-! ## Directory walker -/

end FileScannerCore

/-- A directory entry: a regular file, a directory with its entries, or
any other kind of entry, which the walker never emits. -/
inductive FsNode where
  | file (name : String)
  | dir (name : String) (entries : List FsNode)
  | other (name : String)
deriving Repr

/-- The root-relative path string of a segment list. -/
def relString (segs : List String) : String :=
  String.intercalate "/" segs

namespace FileScannerCore

mutual

/-- Walk one directory entry: skip it entirely when its relative path is
ignored; recurse into directories; emit regular files passing the
extension filter; never emit other entries. -/
def walkEntry (ig : String → Bool) (exts : List String) (pre : List String) : FsNode → List (List String)
  | FsNode.file nm =>
    if ig (relString (pre ++ [nm])) then []
    else if exts.isEmpty then [pre ++ [nm]]
    else if lowerStr (extnameOf nm) ∈ exts then [pre ++ [nm]]
    else []
  | FsNode.dir nm es =>
    if ig (relString (pre ++ [nm])) then []
    else walkEntries ig exts (pre ++ [nm]) es
  | FsNode.other _ => []

/-- Walk a directory entry list left to right. -/
def walkEntries (ig : String → Bool) (exts : List String) (pre : List String) : List FsNode → List (List String)
  | [] => []
  | e :: es => walkEntry ig exts pre e ++ walkEntries ig exts pre es

end

/-- Scan a root directory given as its entry list: walk every entry with
an empty relative prefix. -/
def scan (ig : String → Bool) (exts : List String) (rootEntries : List FsNode) : List (List String) :=
  walkEntries ig exts [] rootEntries

end FileScannerCore

mutual

/-- All regular-file paths of one entry, with no ignoring at all. -/
def allFilePaths (pre : List String) : FsNode → List (List String)
  | FsNode.file nm => [pre ++ [nm]]
  | FsNode.dir nm es => allFilePathsList (pre ++ [nm]) es
  | FsNode.other _ => []

/-- All regular-file paths of an entry list. -/
def allFilePathsList (pre : List String) : List FsNode → List (List String)
  | [] => []
  | e :: es => allFilePaths pre e ++ allFilePathsList pre es

end

/-- A path is clear of the ignore rules when no non-empty prefix of its
segments, the path itself included, has an ignored relative path. -/
def clearOfIgnores (ig : String → Bool) (p : List String) : Prop :=
  ∀ k, 1 ≤ k → k ≤ p.length → ig (relString (p.take k)) = false

/-! ## Helper lemmas -/

theorem lowerChar_idem (c : Char) : lowerChar (lowerChar c) = lowerChar c := by
  by_cases h : (65 ≤ c.toNat && c.toNat ≤ 90) = true
  · have h1 : 65 ≤ c.toNat := by
      have := (Bool.and_eq_true _ _).mp h
      exact Nat.le_of_ble_eq_true (by simpa using this.1)
    have h2 : c.toNat ≤ 90 := by
      have := (Bool.and_eq_true _ _).mp h
      exact Nat.le_of_ble_eq_true (by simpa using this.2)
    have hin : lowerChar c = Char.ofNat (c.toNat + 32) := by rw [lowerChar, if_pos h]
    rw [hin]
    generalize c.toNat = n at h1 h2
    interval_cases n <;> decide
  · have hin : lowerChar c = c := by rw [lowerChar, if_neg h]
    rw [hin]
    exact hin

theorem lowerStr_fix_of_mem_lower {s : String} {c : Char}
    (hc : c ∈ (lowerStr s).data) : lowerChar c = c := by
  rcases List.mem_map.mp hc with ⟨a, _, ha⟩
  rw [← ha, lowerChar_idem]

theorem lowerStr_fix_all {nm : String}
    (h : ∀ c ∈ nm.data, lowerChar c = c) : lowerStr nm = nm := by
  have : nm.data.map lowerChar = nm.data := by
    calc nm.data.map lowerChar = nm.data.map id := List.map_congr_left h
    _ = nm.data := List.map_id nm.data
  cases nm
  exact congrArg String.mk this

theorem matchKeywordIdent_mem {kw l : List Char} {nm : String}
    (h : FortranScanner.matchKeywordIdent kw l = some nm) :
    ∀ c ∈ nm.data, c ∈ l := by
  intro c hc
  simp only [FortranScanner.matchKeywordIdent] at h
  split at h
  · split at h
    · exact absurd h (by simp)
    · split at h
      · exact absurd h (by simp)
      · rw [Option.some.injEq] at h
        subst h
        exact (List.dropWhile_sublist _).subset
          ((List.drop_sublist _ _).subset
            ((List.dropWhile_sublist _).subset
              ((List.takeWhile_sublist _).subset hc)))
  · exact absurd h (by simp)

theorem findOpener_go_mem {cp : String} {pats : List (String × List Char)}
    {k nm : String} (h : FortranScanner.findOpener.go cp pats = some (k, nm)) :
    ∀ c ∈ nm.data, c ∈ cp.data := by
  induction pats with
  | nil => exact absurd h (by simp [FortranScanner.findOpener.go])
  | cons p rest ih =>
    rw [FortranScanner.findOpener.go] at h
    cases hm : FortranScanner.matchKeywordIdent p.2 cp.data with
    | some nm' =>
      rw [hm] at h
      rw [Option.some.injEq, Prod.mk.injEq] at h
      rw [← h.2]
      exact matchKeywordIdent_mem hm
    | none =>
      rw [hm] at h
      exact ih h

theorem findOpener_name_lower {line k nm : String}
    (h : FortranScanner.findOpener (FortranScanner.codePartOf line) = some (k, nm)) :
    lowerStr nm = nm := by
  apply lowerStr_fix_all
  intro c hc
  have hmem : c ∈ (FortranScanner.codePartOf line).data := findOpener_go_mem h c hc
  exact lowerStr_fix_of_mem_lower hmem

theorem matchKeywordIdent_ne_head (k0 : Char) (kr : List Char) {l t : List Char} {d : Char}
    (hl : l.dropWhile jsWS = d :: t) (hne : k0 ≠ d) :
    FortranScanner.matchKeywordIdent (k0 :: kr) l = none := by
  simp only [FortranScanner.matchKeywordIdent, hl]
  rw [if_neg]
  intro heq
  rw [List.length_cons, List.take_succ_cons, List.cons.injEq] at heq
  exact hne heq.1.symm

theorem isEndLine_no_opener {cp : String}
    (h : FortranScanner.isEndLine cp = true) :
    FortranScanner.findOpener cp = none := by
  simp only [FortranScanner.isEndLine, Bool.and_eq_true, decide_eq_true_eq] at h
  have h1 := h.1
  have hl : cp.data.dropWhile jsWS = 'e' :: 'n' :: 'd' :: ((cp.data.dropWhile jsWS).drop 3) := by
    conv_lhs => rw [← List.take_append_drop 3 (cp.data.dropWhile jsWS)]
    rw [h1]
    rfl
  have hm1 := matchKeywordIdent_ne_head 'p' ['r','o','g','r','a','m'] hl (by decide)
  have hm2 := matchKeywordIdent_ne_head 'm' ['o','d','u','l','e'] hl (by decide)
  have hm3 := matchKeywordIdent_ne_head 's' ['u','b','r','o','u','t','i','n','e'] hl (by decide)
  have hm4 := matchKeywordIdent_ne_head 'f' ['u','n','c','t','i','o','n'] hl (by decide)
  have hm5 := matchKeywordIdent_ne_head 't' ['y','p','e'] hl (by decide)
  simp [FortranScanner.findOpener, FortranScanner.findOpener.go, FortranScanner.fortranPatterns,
    hm1, hm2, hm3, hm4, hm5]

/-- The invariant of an emitted tag: its snippet is the re-slice of its
line range, and its name is already lower-cased. -/
def goodTag (lines : List String) (t : ExtractedTag) : Prop :=
  t.code = reSlice lines t.startLine t.endLine ∧ lowerStr t.name = t.name

theorem countOpeners_cons (line : String) (rest : List String) :
    FortranScanner.countOpeners (line :: rest)
      = FortranScanner.openerCount1 line + FortranScanner.countOpeners rest := by
  simp [FortranScanner.countOpeners]

theorem fortranLoop_inv (lines : List String) (i : Nat) (rest : List String)
    (tags : List ExtractedTag) (stack : List OpenRec) :
    (∀ t ∈ tags, goodTag lines t) → (∀ r ∈ stack, lowerStr r.name = r.name) →
    ((FortranScanner.fortranLoop lines i rest tags stack).1.length
        + (FortranScanner.fortranLoop lines i rest tags stack).2.length
        = tags.length + stack.length + FortranScanner.countOpeners rest
      ∧ (∀ t ∈ (FortranScanner.fortranLoop lines i rest tags stack).1, goodTag lines t)
      ∧ (∀ r ∈ (FortranScanner.fortranLoop lines i rest tags stack).2, lowerStr r.name = r.name)) := by
  induction i, rest, tags, stack using FortranScanner.fortranLoop.induct lines with
  | case1 i tags stack =>
    intro h1 h2
    refine ⟨by simp [FortranScanner.fortranLoop, FortranScanner.countOpeners], ?_, ?_⟩
    · simpa [FortranScanner.fortranLoop] using h1
    · simpa [FortranScanner.fortranLoop] using h2
  | case2 i line rest tags stack hcom ih =>
    intro h1 h2
    have hoc : FortranScanner.openerCount1 line = 0 := by
      simp [FortranScanner.openerCount1, hcom]
    rw [FortranScanner.fortranLoop, if_pos hcom]
    obtain ⟨e1, e2, e3⟩ := ih h1 h2
    exact ⟨by rw [countOpeners_cons, hoc]; omega, e2, e3⟩
  | case3 i line rest tags stack hcom cp hcp ih =>
    intro h1 h2
    have hcp' : FortranScanner.codePartOf line = "" := hcp
    have hoc : FortranScanner.openerCount1 line = 0 := by
      simp [FortranScanner.openerCount1, hcom, hcp']
    rw [FortranScanner.fortranLoop, if_neg hcom, if_pos hcp']
    obtain ⟨e1, e2, e3⟩ := ih h1 h2
    exact ⟨by rw [countOpeners_cons, hoc]; omega, e2, e3⟩
  | case4 i line rest tags stack hcom cp hcp stack1 hend hnil ih =>
    intro h1 h2
    have hcp' : ¬(FortranScanner.codePartOf line = "") := hcp
    have hnil' : FortranScanner.pushOpener (FortranScanner.codePartOf line) i stack = [] := hnil
    have hend' : FortranScanner.isEndLine (FortranScanner.codePartOf line) = true := hend
    have hfo : FortranScanner.findOpener (FortranScanner.codePartOf line) = none := by
      cases hx : FortranScanner.findOpener (FortranScanner.codePartOf line) with
      | none => rfl
      | some pr =>
        rw [FortranScanner.pushOpener, hx] at hnil'
        obtain ⟨k, nm⟩ := pr
        simp at hnil'
    have hstk : stack = [] := by
      rw [FortranScanner.pushOpener, hfo] at hnil'
      exact hnil'
    have hoc : FortranScanner.openerCount1 line = 0 := by
      simp [FortranScanner.openerCount1, hcom, hcp', hfo]
    rw [FortranScanner.fortranLoop, if_neg hcom]
    simp only [if_neg hcp']
    rw [show (FortranScanner.pushOpener (FortranScanner.codePartOf line) i stack) = [] from hnil']
    simp only [if_pos hend']
    obtain ⟨e1, e2, e3⟩ := ih h1 (by simp)
    refine ⟨?_, e2, e3⟩
    rw [countOpeners_cons, hoc, hstk]
    simpa using e1
  | case5 i line rest tags stack hcom cp hcp stack1 hend r stack2 hcons ih =>
    intro h1 h2
    have hcp' : ¬(FortranScanner.codePartOf line = "") := hcp
    have hend' : FortranScanner.isEndLine (FortranScanner.codePartOf line) = true := hend
    have hcons' : FortranScanner.pushOpener (FortranScanner.codePartOf line) i stack = r :: stack2 := hcons
    have hparts : lowerStr r.name = r.name ∧ (∀ q ∈ stack2, lowerStr q.name = q.name)
        ∧ stack2.length + 1 = stack.length + FortranScanner.openerCount1 line := by
      cases hx : FortranScanner.findOpener (FortranScanner.codePartOf line) with
      | none =>
        rw [FortranScanner.pushOpener, hx] at hcons'
        have hoc : FortranScanner.openerCount1 line = 0 := by
          simp [FortranScanner.openerCount1, hcom, hcp', hx]
        subst hcons'
        exact ⟨h2 r (by simp), fun q hq => h2 q (by simp [hq]), by simp [hoc]⟩
      | some pr =>
        obtain ⟨k, nm⟩ := pr
        simp only [FortranScanner.pushOpener, hx] at hcons'
        have hoc : FortranScanner.openerCount1 line = 1 := by
          simp [FortranScanner.openerCount1, hcom, hcp', hx]
        obtain ⟨hr, hs2⟩ := List.cons.inj hcons'
        refine ⟨?_, ?_, ?_⟩
        · rw [← hr]
          exact findOpener_name_lower hx
        · intro q hq
          exact h2 q (hs2 ▸ hq)
        · rw [← hs2, hoc]
    obtain ⟨hrn, hs2n, hlen⟩ := hparts
    have hclose : goodTag lines (FortranScanner.closeRec lines r i) := ⟨rfl, hrn⟩
    rw [FortranScanner.fortranLoop, if_neg hcom]
    simp only [if_neg hcp']
    rw [show (FortranScanner.pushOpener (FortranScanner.codePartOf line) i stack) = r :: stack2 from hcons']
    simp only [if_pos hend']
    have htags : ∀ t ∈ tags ++ [FortranScanner.closeRec lines r i], goodTag lines t := by
      intro t ht
      rcases List.mem_append.mp ht with h | h
      · exact h1 t h
      · rw [List.mem_singleton.mp h]
        exact hclose
    obtain ⟨e1, e2, e3⟩ := ih htags hs2n
    refine ⟨?_, e2, e3⟩
    rw [countOpeners_cons]
    simp only [List.length_append, List.length_singleton] at e1
    omega
  | case6 i line rest tags stack hcom cp hcp stack1 hend ih =>
    intro h1 h2
    have hcp' : ¬(FortranScanner.codePartOf line = "") := hcp
    have hend' : ¬(FortranScanner.isEndLine (FortranScanner.codePartOf line) = true) := hend
    have hparts : (∀ q ∈ FortranScanner.pushOpener (FortranScanner.codePartOf line) i stack,
          lowerStr q.name = q.name)
        ∧ (FortranScanner.pushOpener (FortranScanner.codePartOf line) i stack).length
            = stack.length + FortranScanner.openerCount1 line := by
      cases hx : FortranScanner.findOpener (FortranScanner.codePartOf line) with
      | none =>
        have hoc : FortranScanner.openerCount1 line = 0 := by
          simp [FortranScanner.openerCount1, hcom, hcp', hx]
        rw [FortranScanner.pushOpener, hx]
        exact ⟨h2, by simp [hoc]⟩
      | some pr =>
        obtain ⟨k, nm⟩ := pr
        have hoc : FortranScanner.openerCount1 line = 1 := by
          simp [FortranScanner.openerCount1, hcom, hcp', hx]
        rw [FortranScanner.pushOpener, hx]
        refine ⟨?_, by simp [hoc]⟩
        intro q hq
        rcases List.mem_cons.mp hq with h | h
        · rw [h]
          exact findOpener_name_lower hx
        · exact h2 q h
    obtain ⟨hnames, hlen⟩ := hparts
    rw [FortranScanner.fortranLoop, if_neg hcom]
    simp only [if_neg hcp', if_neg hend']
    obtain ⟨e1, e2, e3⟩ := ih h1 hnames
    have hst : stack1 = FortranScanner.pushOpener (FortranScanner.codePartOf line) i stack := rfl
    rw [hst] at e1 e2 e3
    refine ⟨?_, e2, e3⟩
    rw [countOpeners_cons]
    omega

/-- The code field of a tag is exactly the re-slice of its line range. -/
def codeMatches (src : List String) (t : ExtractedTag) : Prop :=
  t.code = reSlice src t.startLine t.endLine

theorem fortran_tags_good (lines : List String) :
    ∀ t ∈ FortranScanner.extractTags lines, goodTag lines t := by
  obtain ⟨e1, e2, e3⟩ := fortranLoop_inv lines 1 lines [] [] (by simp) (by simp)
  intro t ht
  simp only [FortranScanner.extractTags, FortranScanner.scanLines] at ht
  rcases List.mem_append.mp ht with h | h
  · exact e2 t h
  · obtain ⟨r, hr, hfc⟩ := List.mem_map.mp h
    rw [← hfc]
    exact ⟨rfl, e3 r hr⟩

theorem fortran_extract_length (lines : List String) :
    (FortranScanner.extractTags lines).length = FortranScanner.countOpeners lines := by
  obtain ⟨e1, e2, e3⟩ := fortranLoop_inv lines 1 lines [] [] (by simp) (by simp)
  simp only [FortranScanner.extractTags, FortranScanner.scanLines] at *
  simp only [List.length_append, List.length_map]
  simpa using e1

theorem visitNamed_code (src : List String) (k : String) (id : Option String)
    (loc : Option Loc) : ∀ t ∈ TypeScriptScanner.visitNamed src k id loc,
    codeMatches src t := by
  intro t ht
  cases id with
  | none => cases loc <;> simp [TypeScriptScanner.visitNamed] at ht
  | some nm =>
    cases loc with
    | none => simp [TypeScriptScanner.visitNamed] at ht
    | some l =>
      simp only [TypeScriptScanner.visitNamed, List.mem_singleton] at ht
      rw [ht]
      rfl

theorem processDecl_code (src : List String) (d : JsDeclarator) :
    ∀ t ∈ TypeScriptScanner.processDecl src d, codeMatches src t := by
  intro t ht
  unfold TypeScriptScanner.processDecl at ht
  split at ht
  · rw [List.mem_singleton.mp ht]
    rfl
  · rw [List.mem_singleton.mp ht]
    rfl
  · split at ht
    · rw [List.mem_singleton.mp ht]
      rfl
    · exact absurd ht (by simp)
  · exact absurd ht (by simp)

theorem visitVariableDecl_code (src : List String) (decls : List JsDeclarator)
    (loc : Option Loc) : ∀ t ∈ TypeScriptScanner.visitVariableDecl src decls loc,
    codeMatches src t := by
  intro t ht
  cases loc with
  | none => simp [TypeScriptScanner.visitVariableDecl] at ht
  | some l =>
    simp only [TypeScriptScanner.visitVariableDecl, List.mem_flatten, List.mem_map] at ht
    obtain ⟨ts, ⟨d, hd, hts⟩, hmem⟩ := ht
    rw [← hts] at hmem
    exact processDecl_code src d t hmem

mutual

theorem visitNode_code (src : List String) : (n : JsNode) →
    ∀ t ∈ TypeScriptScanner.visitNode src n, codeMatches src t
  | JsNode.functionDecl id loc ch => by
    intro t ht
    rw [TypeScriptScanner.visitNode] at ht
    rcases List.mem_append.mp ht with h | h
    · exact visitNamed_code src "function" id loc t h
    · exact visitNodes_code src ch t h
  | JsNode.variableDecl decls loc ch => by
    intro t ht
    rw [TypeScriptScanner.visitNode] at ht
    rcases List.mem_append.mp ht with h | h
    · exact visitVariableDecl_code src decls loc t h
    · exact visitNodes_code src ch t h
  | JsNode.classDecl id loc ch => by
    intro t ht
    rw [TypeScriptScanner.visitNode] at ht
    rcases List.mem_append.mp ht with h | h
    · exact visitNamed_code src "class" id loc t h
    · exact visitNodes_code src ch t h
  | JsNode.typeAlias id loc ch => by
    intro t ht
    rw [TypeScriptScanner.visitNode] at ht
    rcases List.mem_append.mp ht with h | h
    · exact visitNamed_code src "type" id loc t h
    · exact visitNodes_code src ch t h
  | JsNode.interfaceDecl id loc ch => by
    intro t ht
    rw [TypeScriptScanner.visitNode] at ht
    rcases List.mem_append.mp ht with h | h
    · exact visitNamed_code src "interface" id loc t h
    · exact visitNodes_code src ch t h
  | JsNode.otherNode ch => by
    intro t ht
    rw [TypeScriptScanner.visitNode] at ht
    exact visitNodes_code src ch t ht

theorem visitNodes_code (src : List String) : (ns : List JsNode) →
    ∀ t ∈ TypeScriptScanner.visitNodes src ns, codeMatches src t
  | [] => by
    intro t ht
    rw [TypeScriptScanner.visitNodes] at ht
    exact absurd ht (by simp)
  | n :: ns => by
    intro t ht
    rw [TypeScriptScanner.visitNodes] at ht
    rcases List.mem_append.mp ht with h | h
    · exact visitNode_code src n t h
    · exact visitNodes_code src ns t h

end

/-! ## Claim theorems for the Fortran strategy -/

/-- C1, counterexample: on the file with lines program p, end do, and
end program p, the stack scanner emits exactly one construct, but it is
closed by the end do line, with end line 2, not by the end program p
line, so a closer with a non-matching kind suffix is not ignored. -/
theorem fortran_end_do_pops_counterexample :
    FortranScanner.extractTags ["program p", "  end do", "end program p"]
      = [⟨"program", "p", 1, 2, "program p\n  end do"⟩]
    ∧ (FortranScanner.extractTags
        ["program p", "  end do", "end program p"]).map ExtractedTag.endLine ≠ [3] := by
  constructor
  · decide
  · decide

/-- C1, amended: any closer line, that is, any non-comment line whose
code part is non-empty and matches the end test, pops the top of the
open-construct stack when the stack is non-empty, regardless of the kind
suffix after the end keyword, emitting the popped record closed at the
current line. -/
theorem fortran_closer_pops_any_kind (lines : List String) (i : Nat) (line : String)
    (rest : List String) (tags : List ExtractedTag) (r : OpenRec) (stack : List OpenRec)
    (h1 : FortranScanner.isFixedComment line = false)
    (h2 : FortranScanner.codePartOf line ≠ "")
    (h3 : FortranScanner.isEndLine (FortranScanner.codePartOf line) = true) :
    FortranScanner.fortranLoop lines i (line :: rest) tags (r :: stack)
      = FortranScanner.fortranLoop lines (i + 1) rest
          (tags ++ [FortranScanner.closeRec lines r i]) stack := by
  have hfo := isEndLine_no_opener h3
  rw [FortranScanner.fortranLoop, if_neg (by simp [h1]), if_neg h2]
  rw [show FortranScanner.pushOpener (FortranScanner.codePartOf line) i (r :: stack)
        = r :: stack from by rw [FortranScanner.pushOpener, hfo]]
  rw [if_pos h3]

/-- C1, witness: the amended closer rule applied at the end do line of
the counterexample file. -/
theorem fortran_closer_pops_any_kind_witness :
    FortranScanner.fortranLoop ["program p", "  end do", "end program p"] 2
        ["  end do", "end program p"] [] [⟨"program", "p", 1⟩]
      = FortranScanner.fortranLoop ["program p", "  end do", "end program p"] 3
          ["end program p"]
          ([] ++ [FortranScanner.closeRec ["program p", "  end do", "end program p"]
            ⟨"program", "p", 1⟩ 2]) [] :=
  fortran_closer_pops_any_kind ["program p", "  end do", "end program p"] 2 "  end do"
    ["end program p"] [] ⟨"program", "p", 1⟩ [] (by decide) (by decide) (by decide)

/-- C5: every construct produced by either extraction strategy has a
code field equal to the trimmed join of the re-slice of the source lines
at its inclusive one-based line range. -/
theorem construct_code_roundtrip (lines : List String) :
    (∀ t ∈ FortranScanner.extractTags lines,
      t.code = reSlice lines t.startLine t.endLine)
    ∧ (∀ ast : JsNode, ∀ t ∈ TypeScriptScanner.extractTagsFromAst lines ast,
      t.code = reSlice lines t.startLine t.endLine) := by
  constructor
  · intro t ht
    exact (fortran_tags_good lines t ht).1
  · intro ast t ht
    exact visitNode_code lines ast t ht

/-- C5, witness: the round trip at a concrete Fortran file and a
concrete syntax tree. -/
theorem construct_code_roundtrip_witness :
    ExtractedTag.code ⟨"program", "p", 1, 2, "program p\n  end do"⟩
      = reSlice ["program p", "  end do", "end program p"] 1 2 := by
  have h := (construct_code_roundtrip ["program p", "  end do", "end program p"]).1
    ⟨"program", "p", 1, 2, "program p\n  end do"⟩ (by decide)
  exact h

/-- C7: in the Fortran strategy every opener line yields exactly one
construct: the output has exactly one tag per opener line, and every
record still open when the input is exhausted is force-closed with end
line equal to the number of lines of the file and does appear in the
output. -/
theorem fortran_every_opener_closed (lines : List String) :
    (FortranScanner.extractTags lines).length = FortranScanner.countOpeners lines
    ∧ (∀ r ∈ (FortranScanner.scanLines lines).2,
        FortranScanner.forceCloseRec lines r ∈ FortranScanner.extractTags lines
        ∧ (FortranScanner.forceCloseRec lines r).endLine = lines.length) := by
  refine ⟨fortran_extract_length lines, ?_⟩
  intro r hr
  constructor
  · simp only [FortranScanner.extractTags]
    exact List.mem_append_right _ (List.mem_map_of_mem _ hr)
  · rfl

/-- C7, witness: a file with an opener and no closer force-closes at end
of file with end line equal to the line count. -/
theorem fortran_every_opener_closed_witness :
    FortranScanner.forceCloseRec ["program p", "  x = 1"] ⟨"program", "p", 1⟩
        ∈ FortranScanner.extractTags ["program p", "  x = 1"]
      ∧ (FortranScanner.forceCloseRec ["program p", "  x = 1"]
        ⟨"program", "p", 1⟩).endLine = 2 :=
  (fortran_every_opener_closed ["program p", "  x = 1"]).2
    ⟨"program", "p", 1⟩ (by decide)

/-- C10: the name of every construct the Fortran strategy emits is
already lower-cased, because the identifier is captured from the
lower-cased code part of the line; on the file PROGRAM Main followed by
END PROGRAM Main the reported name is main while the code field keeps
the original casing. -/
theorem fortran_names_lowercased (lines : List String) :
    (∀ t ∈ FortranScanner.extractTags lines, lowerStr t.name = t.name)
    ∧ FortranScanner.extractTags ["PROGRAM Main", "END PROGRAM Main"]
        = [⟨"program", "main", 1, 2, "PROGRAM Main\nEND PROGRAM Main"⟩] := by
  constructor
  · intro t ht
    exact (fortran_tags_good lines t ht).2
  · decide

/-- C10, witness: the lower-casing fact applied to the tag extracted
from the concrete file. -/
theorem fortran_names_lowercased_witness : lowerStr "main" = "main" := by
  have h := (fortran_names_lowercased ["PROGRAM Main", "END PROGRAM Main"]).1
    ⟨"program", "main", 1, 2, "PROGRAM Main\nEND PROGRAM Main"⟩ (by decide)
  exact h

/-! ## Claim theorems for the TypeScript strategy declarators -/

/-- C8, counterexample: a declarator whose binding target is a
destructuring pattern, with an ordinary initializer and all locations
recorded, emits nothing, although the claim requires a variable
construct for any non-function initializer. -/
theorem ts_pattern_declarator_counterexample :
    TypeScriptScanner.extractTagsFromAst ["const [a] = xs;"]
      (JsNode.variableDecl
        [⟨JsLVal.pattern, some (JsInit.otherInit (some ⟨1, 1⟩)), some ⟨1, 1⟩⟩]
        (some ⟨1, 1⟩) []) = []
    ∧ (⟨JsLVal.pattern, some (JsInit.otherInit (some ⟨1, 1⟩)),
        some ⟨1, 1⟩⟩ : JsDeclarator).init ≠ none := by
  constructor
  · rfl
  · decide

/-- C8, amended: for a declarator whose binding target is a plain
identifier, a function-literal initializer with a recorded location
emits one function construct spanning exactly the initializer location,
any other initializer emits one variable construct spanning the full
declarator location, and no initializer emits nothing; a declarator
whose target is a destructuring pattern emits nothing; and the
variable-declaration visitor of the strategy emits exactly the
concatenation of the per-declarator results. -/
theorem ts_declarator_emission_spec (src : List String) (d : JsDeclarator)
    (nm : String) (l dl : Loc) (il : Option Loc) :
    (d.id = JsLVal.ident nm → d.init = some (JsInit.arrowFn (some l)) →
      TypeScriptScanner.processDecl src d = [TypeScriptScanner.emitTag src "function" nm l])
    ∧ (d.id = JsLVal.ident nm → d.init = some (JsInit.funExpr (some l)) →
      TypeScriptScanner.processDecl src d = [TypeScriptScanner.emitTag src "function" nm l])
    ∧ (d.id = JsLVal.ident nm → d.init = some (JsInit.otherInit il) → d.loc = some dl →
      TypeScriptScanner.processDecl src d = [TypeScriptScanner.emitTag src "variable" nm dl])
    ∧ (d.init = none → TypeScriptScanner.processDecl src d = [])
    ∧ (d.id = JsLVal.pattern → TypeScriptScanner.processDecl src d = [])
    ∧ (∀ (decls : List JsDeclarator) (vl : Loc) (ch : List JsNode),
      TypeScriptScanner.extractTagsFromAst src (JsNode.variableDecl decls (some vl) ch)
        = (decls.map (TypeScriptScanner.processDecl src)).flatten
          ++ TypeScriptScanner.visitNodes src ch) := by
  obtain ⟨did, dinit, dloc⟩ := d
  refine ⟨?_, ?_, ?_, ?_, ?_, ?_⟩
  · intro h1 h2
    simp only at h1 h2
    subst h1
    subst h2
    rfl
  · intro h1 h2
    simp only at h1 h2
    subst h1
    subst h2
    rfl
  · intro h1 h2 h3
    simp only at h1 h2 h3
    subst h1
    subst h2
    subst h3
    rfl
  · intro h1
    simp only at h1
    subst h1
    cases did <;> rfl
  · intro h1
    simp only at h1
    subst h1
    cases dinit with
    | none => rfl
    | some i => cases i <;> rfl
  · intro decls vl ch
    rfl

/-- C8, witness: the amended declarator rules applied at concrete
declarators. -/
theorem ts_declarator_emission_spec_witness :
    TypeScriptScanner.processDecl ["const f = () => 1;"]
        ⟨JsLVal.ident "f", some (JsInit.arrowFn (some ⟨1, 1⟩)), some ⟨1, 1⟩⟩
      = [TypeScriptScanner.emitTag ["const f = () => 1;"] "function" "f" ⟨1, 1⟩] :=
  (ts_declarator_emission_spec ["const f = () => 1;"]
    ⟨JsLVal.ident "f", some (JsInit.arrowFn (some ⟨1, 1⟩)), some ⟨1, 1⟩⟩
    "f" ⟨1, 1⟩ ⟨1, 1⟩ none).1 rfl rfl

/-! ## Claim theorems for ignore-rule loading -/

/-- C4, counterexample: a present but unreadable rule file makes rule
loading abort with the read error, instead of being skipped with a
warning. -/
theorem ruleload_unreadable_counterexample :
    FileScannerCore.loadIgnoreRules [RuleFile.unreadable] [] = Except.error () := rfl

/-- C4, amended: a missing rule file is silently skipped, but an
unreadable rule file anywhere in the list makes rule loading abort with
the read error rather than proceed with the rules accumulated so far. -/
theorem ruleload_missing_skipped_unreadable_aborts :
    (∀ (rest : List RuleFile) (extra : List String),
      FileScannerCore.loadIgnoreRules (RuleFile.missing :: rest) extra
        = FileScannerCore.loadIgnoreRules rest extra)
    ∧ (∀ (files : List RuleFile) (extra : List String), RuleFile.unreadable ∈ files →
      FileScannerCore.loadIgnoreRules files extra = Except.error ()) := by
  constructor
  · intro rest extra
    rw [FileScannerCore.loadIgnoreRules, FileScannerCore.loadIgnoreRules.go,
      FileScannerCore.loadIgnoreRules]
  · intro files extra hm
    have hgo : FileScannerCore.loadIgnoreRules.go files = Except.error () := by
      induction files with
      | nil => simp at hm
      | cons f rest ih =>
        cases f with
        | missing =>
          rw [FileScannerCore.loadIgnoreRules.go]
          apply ih
          rcases List.mem_cons.mp hm with h | h
          · exact RuleFile.noConfusion h
          · exact h
        | unreadable => rfl
        | readable c =>
          rw [FileScannerCore.loadIgnoreRules.go]
          have hrest : RuleFile.unreadable ∈ rest := by
            rcases List.mem_cons.mp hm with h | h
            · exact RuleFile.noConfusion h
            · exact h
          rw [ih hrest]
    rw [FileScannerCore.loadIgnoreRules, hgo]

/-- C4, witness: loading with a missing file followed by an unreadable
file aborts. -/
theorem ruleload_missing_skipped_unreadable_aborts_witness :
    FileScannerCore.loadIgnoreRules [RuleFile.missing, RuleFile.unreadable] ["dist/"]
      = Except.error () :=
  ruleload_missing_skipped_unreadable_aborts.2
    [RuleFile.missing, RuleFile.unreadable] ["dist/"] (by simp)

/-! ## Orchestrator lemmas -/

theorem claimFile_filePath {scanners : List Scanner} {f : String} {e : ScopedFileContext}
    (h : claimFile scanners f = some e) : e.filePath = f := by
  induction scanners with
  | nil => exact absurd h (by simp [claimFile])
  | cons sc rest ih =>
    rw [claimFile] at h
    by_cases hE : (sc.extract f).isEmpty = true
    · rw [if_pos hE] at h
      exact ih h
    · rw [if_neg hE] at h
      rw [← Option.some.injEq _ _ |>.mp h]

theorem claimFile_eq_none {scanners : List Scanner} {f : String}
    (h : ∀ sc ∈ scanners, sc.extract f = []) : claimFile scanners f = none := by
  induction scanners with
  | nil => rfl
  | cons sc rest ih =>
    rw [claimFile]
    have he : sc.extract f = [] := h sc (by simp)
    rw [if_pos (by simp [he])]
    exact ih (fun sc' hsc' => h sc' (List.mem_cons_of_mem _ hsc'))

theorem claimFile_first (pre : List Scanner) (sc : Scanner) (post : List Scanner)
    (f : String) (hpre : ∀ sc' ∈ pre, sc'.extract f = []) (hne : sc.extract f ≠ []) :
    claimFile (pre ++ sc :: post) f = some ⟨f, sc.name, sc.extract f⟩ := by
  induction pre with
  | nil =>
    rw [List.nil_append, claimFile]
    rw [if_neg (by simp [hne])]
  | cons p pre ih =>
    rw [List.cons_append, claimFile]
    rw [if_pos (by simp [hpre p (by simp)])]
    exact ih (fun sc' hsc' => hpre sc' (List.mem_cons_of_mem _ hsc'))

theorem runFullScan_mem {scanners : List Scanner} {files : List String}
    {e : ScopedFileContext} :
    e ∈ runFullScan scanners files ↔ ∃ f ∈ files, claimFile scanners f = some e := by
  induction files with
  | nil => simp [runFullScan]
  | cons f fs ih =>
    rw [runFullScan]
    cases hc : claimFile scanners f with
    | some e' =>
      simp only [List.mem_cons, ih]
      constructor
      · rintro (h | ⟨g, hg, hge⟩)
        · exact ⟨f, by simp, by rw [hc, h]⟩
        · exact ⟨g, by simp [hg], hge⟩
      · rintro ⟨g, hg, hge⟩
        rcases hg with h | h
        · subst h
          rw [hc] at hge
          exact Or.inl (Option.some.injEq _ _ ▸ hge).symm
        · exact Or.inr ⟨g, h, hge⟩
    | none =>
      rw [ih]
      constructor
      · rintro ⟨g, hg, hge⟩
        exact ⟨g, List.mem_cons_of_mem _ hg, hge⟩
      · rintro ⟨g, hg, hge⟩
        rcases List.mem_cons.mp hg with h | h
        · subst h
          rw [hc] at hge
          exact absurd hge (by simp)
        · exact ⟨g, h, hge⟩

/-! ## Claim theorem for the full scan -/

/-- C2: in a full scan every walked file is offered to the strategies in
registry order; when the registry splits as pre, sc, post with every
strategy of pre returning the empty list on the file and sc returning a
non-empty list, the file is claimed by sc, whose identifier becomes the
entry language and whose extraction becomes its tags, and a file on
which every strategy returns the empty list yields no entry at all. -/
theorem fullscan_first_claim (scanners : List Scanner) (files : List String) (f : String) :
    (∀ (pre : List Scanner) (sc : Scanner) (post : List Scanner),
      scanners = pre ++ sc :: post → (∀ sc' ∈ pre, sc'.extract f = []) →
      sc.extract f ≠ [] → f ∈ files →
      (⟨f, sc.name, sc.extract f⟩ : ScopedFileContext) ∈ runFullScan scanners files)
    ∧ ((∀ sc ∈ scanners, sc.extract f = []) →
      ∀ e ∈ runFullScan scanners files, e.filePath ≠ f) := by
  constructor
  · intro pre sc post hsplit hpre hne hf
    subst hsplit
    exact runFullScan_mem.mpr ⟨f, hf, claimFile_first pre sc post f hpre hne⟩
  · intro hall e he hef
    obtain ⟨g, hg, hge⟩ := runFullScan_mem.mp he
    have hgf : g = f := by rw [← claimFile_filePath hge, hef]
    subst hgf
    rw [claimFile_eq_none hall] at hge
    exact absurd hge (by simp)

/-- A tag used by the concrete witness scanners. -/
def tag0 : ExtractedTag := ⟨"function", "x", 1, 1, "x"⟩

/-- A concrete strategy claiming nothing. -/
def scanA : Scanner := ⟨"alpha", [".a"], fun _ => []⟩

/-- A concrete strategy claiming every file. -/
def scanB : Scanner := ⟨"beta", [".b"], fun _ => [tag0]⟩

/-- C2, witness: with a first strategy returning nothing and a second
one claiming the file, the full scan records the entry of the second. -/
theorem fullscan_first_claim_witness :
    (⟨"f1.b", scanB.name, scanB.extract "f1.b"⟩ : ScopedFileContext)
      ∈ runFullScan [scanA, scanB] ["f1.b"] :=
  (fullscan_first_claim [scanA, scanB] ["f1.b"] "f1.b").1 [scanA] scanB []
    rfl (by intro sc' h; rw [List.mem_singleton.mp h]; rfl) (by decide) (by simp)

/-! ## Incremental-update lemmas -/

theorem lookupEntry_mapSet_self (m : List ScopedFileContext) (k : String)
    (e : ScopedFileContext) (he : e.filePath = k) :
    lookupEntry (mapSet m k e) k = some e := by
  induction m with
  | nil => simp [mapSet, lookupEntry, he]
  | cons x xs ih =>
    rw [mapSet]
    by_cases hx : x.filePath = k
    · rw [if_pos hx]
      simp [lookupEntry, he]
    · rw [if_neg hx]
      simpa [lookupEntry, List.find?_cons, hx] using ih

theorem lookupEntry_mapSet_other (m : List ScopedFileContext) (k : String)
    (e : ScopedFileContext) (q : String) (he : e.filePath = k) (hq : q ≠ k) :
    lookupEntry (mapSet m k e) q = lookupEntry m q := by
  have hekq : ¬(e.filePath = q) := by
    rw [he]
    exact fun h => hq h.symm
  induction m with
  | nil => simp [mapSet, lookupEntry, hekq]
  | cons x xs ih =>
    rw [mapSet]
    by_cases hx : x.filePath = k
    · rw [if_pos hx]
      have hxq : ¬(x.filePath = q) := by
        rw [hx]
        exact fun h => hq h.symm
      simp [lookupEntry, List.find?_cons, hekq, hxq]
    · rw [if_neg hx]
      by_cases hxq : x.filePath = q
      · simp [lookupEntry, List.find?_cons, hxq]
      · simpa [lookupEntry, List.find?_cons, hxq] using ih

theorem mem_mapSet_of_ne (m : List ScopedFileContext) (k : String)
    (e x : ScopedFileContext) (hx : x ∈ m) (hne : x.filePath ≠ k) :
    x ∈ mapSet m k e := by
  induction m with
  | nil => exact absurd hx (by simp)
  | cons y ys ih =>
    rw [mapSet]
    by_cases hy : y.filePath = k
    · rw [if_pos hy]
      rcases List.mem_cons.mp hx with h | h
      · subst h
        exact absurd hy hne
      · exact List.mem_cons_of_mem _ h
    · rw [if_neg hy]
      rcases List.mem_cons.mp hx with h | h
      · subst h
        exact List.mem_cons_self _ _
      · exact List.mem_cons_of_mem _ (ih h)

theorem mapSet_of_not_mem (m : List ScopedFileContext) (e : ScopedFileContext)
    (h : ∀ x ∈ m, x.filePath ≠ e.filePath) :
    mapSet m e.filePath e = m ++ [e] := by
  induction m with
  | nil => rfl
  | cons x xs ih =>
    rw [mapSet, if_neg (h x (by simp))]
    rw [ih (fun y hy => h y (List.mem_cons_of_mem _ hy))]
    rfl

theorem buildMap_aux (rest : List ScopedFileContext) :
    ∀ acc : List ScopedFileContext,
    (∀ e ∈ rest, ∀ x ∈ acc, x.filePath ≠ e.filePath) →
    (rest.map ScopedFileContext.filePath).Nodup →
    rest.foldl (fun m e => mapSet m e.filePath e) acc = acc ++ rest := by
  induction rest with
  | nil => intro acc _ _; simp
  | cons e rest ih =>
    intro acc hdisj hnd
    rw [List.foldl_cons]
    rw [mapSet_of_not_mem acc e (fun x hx => hdisj e (by simp) x hx)]
    rw [ih (acc ++ [e]) ?_ (by simpa using (List.nodup_cons.mp (by simpa using hnd)).2)]
    · simp
    · intro e' he' x hx
      rcases List.mem_append.mp hx with h | h
      · exact hdisj e' (List.mem_cons_of_mem _ he') x h
      · rw [List.mem_singleton.mp h]
        intro hcontra
        have hhd : e.filePath ∉ rest.map ScopedFileContext.filePath :=
          (List.nodup_cons.mp (by simpa using hnd)).1
        exact hhd (hcontra ▸ List.mem_map_of_mem _ he')

theorem buildMap_eq_self (prior : List ScopedFileContext)
    (hnd : (prior.map ScopedFileContext.filePath).Nodup) :
    buildMap prior = prior := by
  have h := buildMap_aux prior [] (by simp) hnd
  simpa [buildMap] using h

theorem pup_skip (fsv : FsView) (scanners : List Scanner) (resolve : String → String)
    (m : List ScopedFileContext) (raw : String)
    (h : fsv.isFile (resolve raw) = false) :
    processUpdatePath fsv scanners resolve m raw = m := by
  simp [processUpdatePath, h]

theorem pup_skip_ext (fsv : FsView) (scanners : List Scanner) (resolve : String → String)
    (m : List ScopedFileContext) (raw : String)
    (h1 : fsv.isFile (resolve raw) = true)
    (h2 : lowerStr (extnameOf (resolve raw)) ∉ collectExtensions scanners) :
    processUpdatePath fsv scanners resolve m raw = m := by
  simp [processUpdatePath, h1, h2]

theorem pup_tomb (fsv : FsView) (scanners : List Scanner) (resolve : String → String)
    (m : List ScopedFileContext) (raw : String)
    (h1 : fsv.isFile (resolve raw) = true)
    (h2 : lowerStr (extnameOf (resolve raw)) ∈ collectExtensions scanners)
    (h3 : claimFile scanners (resolve raw) = none) :
    processUpdatePath fsv scanners resolve m raw
      = mapSet m (resolve raw) ⟨resolve raw, "unknown", []⟩ := by
  simp [processUpdatePath, h1, h2, h3]

theorem pup_claim (fsv : FsView) (scanners : List Scanner) (resolve : String → String)
    (m : List ScopedFileContext) (raw : String) (e : ScopedFileContext)
    (h1 : fsv.isFile (resolve raw) = true)
    (h2 : lowerStr (extnameOf (resolve raw)) ∈ collectExtensions scanners)
    (h3 : claimFile scanners (resolve raw) = some e) :
    processUpdatePath fsv scanners resolve m raw = mapSet m (resolve raw) e := by
  simp [processUpdatePath, h1, h2, h3]

theorem pup_lookup_other (fsv : FsView) (scanners : List Scanner)
    (resolve : String → String) (m : List ScopedFileContext) (raw : String)
    (q : String) (hq : q ≠ resolve raw) :
    lookupEntry (processUpdatePath fsv scanners resolve m raw) q = lookupEntry m q := by
  by_cases hf : fsv.isFile (resolve raw) = false
  · rw [pup_skip fsv scanners resolve m raw hf]
  · have hf' : fsv.isFile (resolve raw) = true := by
      cases hx : fsv.isFile (resolve raw)
      · exact absurd hx hf
      · rfl
    by_cases hext : lowerStr (extnameOf (resolve raw)) ∈ collectExtensions scanners
    · cases hc : claimFile scanners (resolve raw) with
      | some e =>
        rw [pup_claim fsv scanners resolve m raw e hf' hext hc]
        exact lookupEntry_mapSet_other m _ e q (claimFile_filePath hc) hq
      | none =>
        rw [pup_tomb fsv scanners resolve m raw hf' hext hc]
        exact lookupEntry_mapSet_other m _ _ q rfl hq
    · rw [pup_skip_ext fsv scanners resolve m raw hf' hext]

theorem pup_mem_preserve (fsv : FsView) (scanners : List Scanner)
    (resolve : String → String) (m : List ScopedFileContext) (raw : String)
    (x : ScopedFileContext) (hx : x ∈ m) (hne : x.filePath ≠ resolve raw) :
    x ∈ processUpdatePath fsv scanners resolve m raw := by
  by_cases hf : fsv.isFile (resolve raw) = false
  · rw [pup_skip fsv scanners resolve m raw hf]
    exact hx
  · have hf' : fsv.isFile (resolve raw) = true := by
      cases hxx : fsv.isFile (resolve raw)
      · exact absurd hxx hf
      · rfl
    by_cases hext : lowerStr (extnameOf (resolve raw)) ∈ collectExtensions scanners
    · cases hc : claimFile scanners (resolve raw) with
      | some e =>
        rw [pup_claim fsv scanners resolve m raw e hf' hext hc]
        exact mem_mapSet_of_ne m _ e x hx hne
      | none =>
        rw [pup_tomb fsv scanners resolve m raw hf' hext hc]
        exact mem_mapSet_of_ne m _ _ x hx hne
    · rw [pup_skip_ext fsv scanners resolve m raw hf' hext]
      exact hx

/-! ## Claim theorems for the incremental update -/

/-- C3: an incremental-update target that exists as a regular file, has
a supported extension, and on which every active strategy returns the
empty list, is recorded in the written index as the explicit entry for
that path with the sentinel unknown language and an empty tag list,
replacing whatever entry the prior index held for it. -/
theorem incremental_tombstone (fsv : FsView) (scanners : List Scanner)
    (resolve : String → String) (prior : List ScopedFileContext)
    (paths : List String) (raw : String)
    (hmem : raw ∈ paths)
    (hfile : fsv.isFile (resolve raw) = true)
    (hext : lowerStr (extnameOf (resolve raw)) ∈ collectExtensions scanners)
    (hempty : ∀ sc ∈ scanners, sc.extract (resolve raw) = []) :
    lookupEntry (runIncrementalUpdate fsv scanners resolve prior paths) (resolve raw)
      = some ⟨resolve raw, "unknown", []⟩ := by
  have hcf : claimFile scanners (resolve raw) = none := claimFile_eq_none hempty
  suffices aux : ∀ (ps : List String) (m : List ScopedFileContext),
      (raw ∈ ps →
        lookupEntry (ps.foldl (processUpdatePath fsv scanners resolve) m) (resolve raw)
          = some ⟨resolve raw, "unknown", []⟩)
      ∧ (lookupEntry m (resolve raw) = some ⟨resolve raw, "unknown", []⟩ →
        lookupEntry (ps.foldl (processUpdatePath fsv scanners resolve) m) (resolve raw)
          = some ⟨resolve raw, "unknown", []⟩) by
    exact (aux paths (buildMap prior)).1 hmem
  intro ps
  induction ps with
  | nil =>
    intro m
    exact ⟨fun h => absurd h (by simp), fun h => h⟩
  | cons q rest ih =>
    intro m
    constructor
    · intro hin
      rw [List.foldl_cons]
      rcases List.mem_cons.mp hin with h | h
      · subst h
        apply (ih _).2
        rw [pup_tomb fsv scanners resolve m raw hfile hext hcf]
        exact lookupEntry_mapSet_self m _ _ rfl
      · exact (ih _).1 h
    · intro hset
      rw [List.foldl_cons]
      apply (ih _).2
      by_cases hqp : resolve q = resolve raw
      · rw [pup_tomb fsv scanners resolve m q (by rw [hqp]; exact hfile)
          (by rw [hqp]; exact hext) (by rw [hqp]; exact hcf)]
        rw [hqp]
        exact lookupEntry_mapSet_self m _ _ rfl
      · rw [pup_lookup_other fsv scanners resolve m q (resolve raw)
          (fun h => hqp h.symm)]
        exact hset

/-- A filesystem view on which every path is a regular file. -/
def fsvAll : FsView := ⟨fun _ => true⟩

/-- A filesystem view on which no path exists. -/
def fsvNone : FsView := ⟨fun _ => false⟩

/-- C3, witness: updating an existing supported file that the only
active strategy does not claim records the unknown tombstone entry. -/
theorem incremental_tombstone_witness :
    lookupEntry (runIncrementalUpdate fsvAll [scanA] id [] ["f.a"]) (id "f.a")
      = some ⟨id "f.a", "unknown", []⟩ :=
  incremental_tombstone fsvAll [scanA] id [] ["f.a"] "f.a" (by simp) rfl (by decide)
    (by intro sc h; rw [List.mem_singleton.mp h]; rfl)

/-- C9: an incremental update is a frame over the requested paths: any
prior entry whose path no requested path resolves to survives into the
written index, and a requested path skipped because it is missing, not
a regular file, or of unsupported extension leaves the entry of its
resolved path exactly as in the prior index. -/
theorem incremental_frame (fsv : FsView) (scanners : List Scanner)
    (resolve : String → String) (prior : List ScopedFileContext)
    (paths : List String)
    (hnd : (prior.map ScopedFileContext.filePath).Nodup) :
    (∀ e ∈ prior, (∀ raw ∈ paths, resolve raw ≠ e.filePath) →
      e ∈ runIncrementalUpdate fsv scanners resolve prior paths)
    ∧ (∀ raw ∈ paths,
      (fsv.isFile (resolve raw) = false
        ∨ lowerStr (extnameOf (resolve raw)) ∉ collectExtensions scanners) →
      lookupEntry (runIncrementalUpdate fsv scanners resolve prior paths) (resolve raw)
        = lookupEntry prior (resolve raw)) := by
  constructor
  · intro e he hall
    have hb : e ∈ buildMap prior := by
      rw [buildMap_eq_self prior hnd]
      exact he
    suffices aux : ∀ (ps : List String) (m : List ScopedFileContext), e ∈ m →
        (∀ raw ∈ ps, resolve raw ≠ e.filePath) →
        e ∈ ps.foldl (processUpdatePath fsv scanners resolve) m by
      exact aux paths (buildMap prior) hb hall
    intro ps
    induction ps with
    | nil => intro m hm _; exact hm
    | cons q rest ih =>
      intro m hm hall'
      rw [List.foldl_cons]
      apply ih _ ?_ (fun r hr => hall' r (List.mem_cons_of_mem _ hr))
      exact pup_mem_preserve fsv scanners resolve m q e hm
        (fun h => hall' q (by simp) h.symm)
  · intro raw hraw hskip
    suffices aux : ∀ (ps : List String) (m : List ScopedFileContext),
        lookupEntry (ps.foldl (processUpdatePath fsv scanners resolve) m) (resolve raw)
          = lookupEntry m (resolve raw) by
      rw [runIncrementalUpdate, aux paths (buildMap prior), buildMap_eq_self prior hnd]
    intro ps
    induction ps with
    | nil => intro m; rfl
    | cons q rest ih =>
      intro m
      rw [List.foldl_cons, ih]
      by_cases hqp : resolve q = resolve raw
      · rcases hskip with h | h
        · rw [pup_skip fsv scanners resolve m q (by rw [hqp]; exact h)]
        · cases hx : fsv.isFile (resolve q) with
          | false => rw [pup_skip fsv scanners resolve m q hx]
          | true => rw [pup_skip_ext fsv scanners resolve m q hx (by rw [hqp]; exact h)]
      · exact pup_lookup_other fsv scanners resolve m q (resolve raw)
          (fun h => hqp h.symm)

/-- C9, witness: a prior entry for a path no requested path resolves to
survives an incremental update whose only requested path is missing. -/
theorem incremental_frame_witness :
    (⟨"keep.ts", "typescript", []⟩ : ScopedFileContext)
      ∈ runIncrementalUpdate fsvNone [scanA] id
        [⟨"keep.ts", "typescript", []⟩] ["gone.a"] :=
  (incremental_frame fsvNone [scanA] id [⟨"keep.ts", "typescript", []⟩]
      ["gone.a"] (by simp)).1
    ⟨"keep.ts", "typescript", []⟩ (by simp)
    (by intro raw h; rw [List.mem_singleton.mp h]; decide)

/-! ## Walker lemmas -/

mutual

theorem walkEntry_sound (ig : String → Bool) (exts : List String) (pre : List String) :
    (n : FsNode) → ∀ p ∈ FileScannerCore.walkEntry ig exts pre n,
      ig (relString p) = false
      ∧ (exts ≠ [] → ∃ pre' nm, p = pre' ++ [nm] ∧ lowerStr (extnameOf nm) ∈ exts)
  | FsNode.file nm => by
    intro p hp
    rw [FileScannerCore.walkEntry] at hp
    by_cases hig : ig (relString (pre ++ [nm])) = true
    · rw [if_pos hig] at hp
      exact absurd hp (by simp)
    · rw [if_neg hig] at hp
      have hig' : ig (relString (pre ++ [nm])) = false := by
        cases h : ig (relString (pre ++ [nm]))
        · rfl
        · exact absurd h hig
      by_cases hemp : exts.isEmpty = true
      · rw [if_pos hemp] at hp
        rw [List.mem_singleton.mp hp]
        exact ⟨hig', fun hne => absurd (List.isEmpty_iff.mp hemp) hne⟩
      · rw [if_neg hemp] at hp
        by_cases hctn : lowerStr (extnameOf nm) ∈ exts
        · rw [if_pos hctn] at hp
          rw [List.mem_singleton.mp hp]
          exact ⟨hig', fun _ => ⟨pre, nm, rfl, hctn⟩⟩
        · rw [if_neg hctn] at hp
          exact absurd hp (by simp)
  | FsNode.dir nm es => by
    intro p hp
    rw [FileScannerCore.walkEntry] at hp
    by_cases hig : ig (relString (pre ++ [nm])) = true
    · rw [if_pos hig] at hp
      exact absurd hp (by simp)
    · rw [if_neg hig] at hp
      exact walkEntries_sound ig exts (pre ++ [nm]) es p hp
  | FsNode.other nm => by
    intro p hp
    exact absurd hp (by simp [FileScannerCore.walkEntry])

theorem walkEntries_sound (ig : String → Bool) (exts : List String) (pre : List String) :
    (ns : List FsNode) → ∀ p ∈ FileScannerCore.walkEntries ig exts pre ns,
      ig (relString p) = false
      ∧ (exts ≠ [] → ∃ pre' nm, p = pre' ++ [nm] ∧ lowerStr (extnameOf nm) ∈ exts)
  | [] => by
    intro p hp
    exact absurd hp (by simp [FileScannerCore.walkEntries])
  | n :: ns => by
    intro p hp
    rw [FileScannerCore.walkEntries] at hp
    rcases List.mem_append.mp hp with h | h
    · exact walkEntry_sound ig exts pre n p h
    · exact walkEntries_sound ig exts pre ns p h

end

mutual

theorem allFilePaths_prefix (pre : List String) : (n : FsNode) →
    ∀ p ∈ allFilePaths pre n, ∃ suf, suf ≠ [] ∧ p = pre ++ suf
  | FsNode.file nm => by
    intro p hp
    rw [allFilePaths] at hp
    exact ⟨[nm], by simp, List.mem_singleton.mp hp⟩
  | FsNode.dir nm es => by
    intro p hp
    rw [allFilePaths] at hp
    obtain ⟨suf, hsuf, hps⟩ := allFilePathsList_prefix (pre ++ [nm]) es p hp
    exact ⟨nm :: suf, by simp, by rw [hps]; simp⟩
  | FsNode.other nm => by
    intro p hp
    exact absurd hp (by simp [allFilePaths])

theorem allFilePathsList_prefix (pre : List String) : (ns : List FsNode) →
    ∀ p ∈ allFilePathsList pre ns, ∃ suf, suf ≠ [] ∧ p = pre ++ suf
  | [] => by
    intro p hp
    exact absurd hp (by simp [allFilePathsList])
  | n :: ns => by
    intro p hp
    rw [allFilePathsList] at hp
    rcases List.mem_append.mp hp with h | h
    · exact allFilePaths_prefix pre n p h
    · exact allFilePathsList_prefix pre ns p h

end

mutual

theorem walkEntry_complete (ig : String → Bool) (pre : List String) : (n : FsNode) →
    ∀ p ∈ allFilePaths pre n,
    (∀ k, pre.length < k → k ≤ p.length → ig (relString (p.take k)) = false) →
    p ∈ FileScannerCore.walkEntry ig [] pre n
  | FsNode.file nm => by
    intro p hp hclear
    rw [allFilePaths] at hp
    have hpe := List.mem_singleton.mp hp
    subst hpe
    have hlen : (pre ++ [nm]).length = pre.length + 1 := by simp
    have hig : ig (relString (pre ++ [nm])) = false := by
      have h := hclear (pre.length + 1) (by omega) (by simp)
      rw [← hlen, List.take_length] at h
      exact h
    rw [FileScannerCore.walkEntry, if_neg (by simp [hig]), if_pos (by simp)]
    simp
  | FsNode.dir nm es => by
    intro p hp hclear
    rw [allFilePaths] at hp
    obtain ⟨suf, hsuf, hps⟩ := allFilePathsList_prefix (pre ++ [nm]) es p hp
    have htake : p.take (pre.length + 1) = pre ++ [nm] := by
      rw [hps]
      exact List.take_left' (by simp)
    have hplen : pre.length + 1 ≤ p.length := by
      rw [hps]
      simp
    have hig : ig (relString (pre ++ [nm])) = false := by
      have h := hclear (pre.length + 1) (by omega) hplen
      rw [htake] at h
      exact h
    rw [FileScannerCore.walkEntry, if_neg (by simp [hig])]
    refine walkEntries_complete ig (pre ++ [nm]) es p hp ?_
    intro k hk1 hk2
    refine hclear k ?_ hk2
    simp only [List.length_append, List.length_singleton] at hk1
    omega
  | FsNode.other nm => by
    intro p hp _
    exact absurd hp (by simp [allFilePaths])

theorem walkEntries_complete (ig : String → Bool) (pre : List String) : (ns : List FsNode) →
    ∀ p ∈ allFilePathsList pre ns,
    (∀ k, pre.length < k → k ≤ p.length → ig (relString (p.take k)) = false) →
    p ∈ FileScannerCore.walkEntries ig [] pre ns
  | [] => by
    intro p hp _
    exact absurd hp (by simp [allFilePathsList])
  | n :: ns => by
    intro p hp hclear
    rw [allFilePathsList] at hp
    rw [FileScannerCore.walkEntries]
    rcases List.mem_append.mp hp with h | h
    · exact List.mem_append_left _ (walkEntry_complete ig pre n p h hclear)
    · exact List.mem_append_right _ (walkEntries_complete ig pre ns p h hclear)

end

/-! ## Claim theorem for the walker -/

/-- C6: the walker never returns a path whose root-relative path the
accumulated ignore rules match, regardless of extension; with a
non-empty extension list every returned path is a file whose base name
extension, lower-cased, is in the list; and with an empty extension
list every regular file clear of the ignore rules along its whole path
is returned. -/
theorem walker_spec (ig : String → Bool) (exts : List String) (entries : List FsNode) :
    (∀ p ∈ FileScannerCore.scan ig exts entries, ig (relString p) = false)
    ∧ (exts ≠ [] → ∀ p ∈ FileScannerCore.scan ig exts entries,
        ∃ pre nm, p = pre ++ [nm] ∧ lowerStr (extnameOf nm) ∈ exts)
    ∧ (∀ p ∈ allFilePathsList [] entries, clearOfIgnores ig p →
        p ∈ FileScannerCore.scan ig [] entries) := by
  refine ⟨?_, ?_, ?_⟩
  · intro p hp
    exact (walkEntries_sound ig exts [] entries p hp).1
  · intro hne p hp
    exact (walkEntries_sound ig exts [] entries p hp).2 hne
  · intro p hp hclear
    refine walkEntries_complete ig [] entries p hp ?_
    intro k hk1 hk2
    exact hclear k (by simpa using hk1) hk2

/-- The ignore predicate of the concrete walker witness: exactly the
relative path skip is ignored. -/
def ig0 : String → Bool := fun s => s == "skip"

/-- C6, witness: on a tree with one plain file and one ignored
directory, the plain file passes the ignore check and is returned by
the extension-free walk. -/
theorem walker_spec_witness :
    ig0 (relString ["a.ts"]) = false
    ∧ ["a.ts"] ∈ FileScannerCore.scan ig0 []
        [FsNode.file "a.ts", FsNode.dir "skip" [FsNode.file "b.ts"]] :=
  ⟨(walker_spec ig0 [] [FsNode.file "a.ts", FsNode.dir "skip" [FsNode.file "b.ts"]]).1
      ["a.ts"] (by decide),
   (walker_spec ig0 [] [FsNode.file "a.ts", FsNode.dir "skip" [FsNode.file "b.ts"]]).2.2
      ["a.ts"] (by decide)
      (by
        intro k hk1 hk2
        simp only [List.length_singleton] at hk2
        have hk : k = 1 := by omega
        subst hk
        decide)⟩
